import Mathlib

/-!
Verification of the concurrent sharded username-availability checker
(orchestrator `index.js` and its worker module).

The development shallowly embeds the program's data model and operations:

* error classification and exponential backoff of the retry controller
  (worker, function withRetry);
* the batch requester with its single-key path, the two accepted batch
  response shapes, and the parallel single-key fallback (worker, function
  checkBatch);
* the worker loop with its push / flush result emission machinery
  (worker, functions push, flush, run);
* the concurrency limiter (worker, function pLimit) as a transition
  system over submit / complete events;
* round-robin sharding (index.js, function shardArray);
* the failure-ledger bookkeeping of retry mode (index.js, processResult
  and the ledger rewrite at the end of main).

Network interaction is represented by explicit response parameters: a
batch POST observes a BatchResp, a single-key GET observes an
Except String Bool (the classified outcome of checkSingle).  Strings are
Lean strings; the character-level helpers below mirror the JavaScript
string operations used by the source (split on tab, trim, toLowerCase,
regex containment tests) with structural recursion over the character
list so that all definitions evaluate.
-/

/-- Lowercases a string, mirroring JavaScript's toLowerCase as used by the
case-insensitive regexes in withRetry. -/
def lowerStr (s : String) : String :=
  String.mk (s.data.map Char.toLower)

/-- Substring containment: true when pat occurs contiguously in s.  Models
a JavaScript regex test for a literal alternative. -/
def strContains (s pat : String) : Bool :=
  (List.range (s.data.length + 1)).any
    (fun k => ((s.data.drop k).take pat.data.length) == pat.data)

/-- Recognizer for the regex fragment 5\d\d: a character '5' followed by two
digits somewhere in the character list. -/
def fiveXX : List Char → Bool
  | '5' :: a :: b :: rest => (a.isDigit && b.isDigit) || fiveXX (a :: b :: rest)
  | _ :: rest => fiveXX rest
  | [] => false

/-- Rate-limit classification of an error message: the source tests
/rate|429/i against e.message (worker, withRetry). -/
def isRateLimitMsg (e : String) : Bool :=
  strContains (lowerStr e) "rate" || strContains (lowerStr e) "429"

/-- Retryable classification of an error message: the source tests
/rate|429|5\d\d|timeout|ECONN|ENOTFOUND|EAI_AGAIN|UND_ERR|ETIMEDOUT/i
against e.message (worker, withRetry). -/
def isRetryable (e : String) : Bool :=
  isRateLimitMsg e || fiveXX (lowerStr e).data ||
  strContains (lowerStr e) "timeout" || strContains (lowerStr e) "econn" ||
  strContains (lowerStr e) "enotfound" || strContains (lowerStr e) "eai_again" ||
  strContains (lowerStr e) "und_err" || strContains (lowerStr e) "etimedout"

/-- Backoff delay computed by withRetry before retrying attempt i:
baseDelay * 2^i + jitter with baseDelay 1000 for rate limits and 300
otherwise; the jitter is Math.random() * 500, a value in [0, 500). -/
def backoffDelay (isRateLimit : Bool) (i : Nat) (jitter : ℚ) : ℚ :=
  (if isRateLimit then 1000 else 300) * 2 ^ i + jitter

/-- Loop of withRetry starting at attempt index i with rem attempts left
after this one (rem = retries - i in the source's for loop).  Each attempt
observes attempt i; a success returns it, a non-retryable failure or an
exhausted budget returns the last error.  The second component is the
number of attempts consumed. -/
def withRetryFrom (attempt : Nat → Except String α) : Nat → Nat → Except String α × Nat
  | i, rem =>
    match attempt i, rem with
    | .ok v, _ => (.ok v, i + 1)
    | .error e, 0 => (.error e, i + 1)
    | .error e, r + 1 =>
      if isRetryable e then withRetryFrom attempt (i + 1) r else (.error e, i + 1)

/-- Embeds the worker's withRetry(fn, retries): at most retries + 1 attempts,
returning ok val or the last error's message, together with the number of
attempts consumed.  The source's default budget is retries = 5. -/
def withRetry (attempt : Nat → Except String α) (retries : Nat) : Except String α × Nat :=
  withRetryFrom attempt 0 retries

/-- One per-key check record as pushed through the worker's result channel:
username, the availability field (some true / some false, or none for a
null, missing or non-boolean value), and an optional error message. -/
structure CheckRec where
  username : String
  available : Option Bool
  error : Option String
deriving DecidableEq, Repr

/-- Shape of the JSON body of a completed batch POST response, as
discriminated by checkBatch: JSON.parse failure; the null literal (whose
member access in the map branch throws, which the enclosing try catches);
a non-object scalar; a top-level array (no .results member); an object
with a results array; any other object, read as a key-to-value map where
each key's value is either absent (none), present but non-boolean
(some none), or a boolean (some (some b)). -/
inductive BodyShape where
  | malformed
  | jnull
  | scalar
  | arrTop
  | objResults (rs : List CheckRec)
  | objMap (m : String → Option (Option Bool))

/-- Outcome of the batch POST request itself: an exception from the request
or body read (connection failure or timeout), or a response with an HTTP
status code and a body shape. -/
inductive BatchResp where
  | exn (msg : String)
  | resp (status : Nat) (body : BodyShape)

/-- Result of one checkBatch call: the value returned or the exception
thrown, together with the keys queried through the single-key GET path and
whether a batch POST was attempted. -/
structure BatchOut where
  outcome : Except String (List CheckRec)
  singles : List String
  postedBatch : Bool

/-- Record produced for one key by the parallel single-key fallback of
checkBatch: the key's own try/catch classifies it as a success or a
per-key error. -/
def fallbackRec (single : String → Except String Bool) (u : String) : CheckRec :=
  match single u with
  | .ok b => ⟨u, some b, none⟩
  | .error e => ⟨u, none, some e⟩

/-- Availability extracted from a map-form batch response for one key:
json[u] === true || json[u] === false ? json[u] : null. -/
def mapAvail (v : Option (Option Bool)) : Option Bool :=
  match v with
  | some (some b) => some b
  | _ => none

/-- Embeds the worker's checkBatch(usernameBatch).  A one-element batch goes
through checkSingle directly (its failure propagates as a thrown error).
Otherwise the batch POST is attempted: a 200/201 response whose body is an
object with a results array is returned verbatim; a 200/201 response whose
body is any other object is read as the key-to-boolean map form; every
other outcome (thrown request, other status, unparseable body, null,
scalar, or top-level array) falls back to one single-key GET per key of
the batch, each independently classified, and this fallback never throws. -/
def checkBatch (batch : List String) (r : BatchResp)
    (single : String → Except String Bool) : BatchOut :=
  if batch.length = 1 then
    match single (batch.headD "") with
    | .ok b => ⟨.ok [⟨batch.headD "", some b, none⟩], [batch.headD ""], false⟩
    | .error e => ⟨.error e, [batch.headD ""], false⟩
  else
    match r with
    | .resp s (.objResults rs) =>
      if s = 200 ∨ s = 201 then ⟨.ok rs, [], true⟩
      else ⟨.ok (batch.map (fallbackRec single)), batch, true⟩
    | .resp s (.objMap m) =>
      if s = 200 ∨ s = 201 then
        ⟨.ok (batch.map (fun u => ⟨u, mapAvail (m u), none⟩)), [], true⟩
      else ⟨.ok (batch.map (fallbackRec single)), batch, true⟩
    | _ => ⟨.ok (batch.map (fallbackRec single)), batch, true⟩

/-- The two response classes checkBatch accepts without falling back to
single-key GETs: a 200/201 object with a results array, or a 200/201
object read as the map form. -/
def acceptedResp : BatchResp → Bool
  | .resp s (.objResults _) => s == 200 || s == 201
  | .resp s (.objMap _) => s == 200 || s == 201
  | _ => false

/-- JavaScript's r.error || null as applied at the push call site of run:
a missing or empty error string becomes null. -/
def normError (o : Option String) : Option String :=
  match o with
  | some s => if s = "" then none else some s
  | none => none

/-- JavaScript's x || d on an optional string, as used for
r.error || 'Unknown' in processResult. -/
def orFallback (o : Option String) (d : String) : String :=
  match o with
  | some s => if s = "" then d else s
  | none => d

/-- Records pushed for one HTTP batch group by run: withRetry wraps
checkBatch; on ok every returned record is pushed (with its error field
normalized by || null); on a terminal error every key of the group is
pushed as an error record carrying the final message.  The response and
single-key oracles are indexed by the attempt number. -/
def processBatch (batch : List String) (resp : Nat → BatchResp)
    (single : Nat → String → Except String Bool) (retries : Nat) : List CheckRec :=
  match withRetry (fun k => (checkBatch batch (resp k) (single k)).outcome) retries with
  | (.ok rs, _) => rs.map (fun r => ⟨r.username, r.available, normError r.error⟩)
  | (.error e, _) => batch.map (fun u => ⟨u, none, some e⟩)

/-- State of the worker's IPC buffering: the pending batch array and the
concatenation of all records already posted to the parent. -/
structure EmitState where
  buffer : List CheckRec
  emitted : List CheckRec
deriving DecidableEq, Repr

/-- Embeds the worker's push(username, available, ttc, error): append to the
batch buffer and flush it once it reaches the IPC batch size B.  The
orchestrator always passes ipcBatchSize 1, but the machinery is modeled
for any B. -/
def pushRec (B : Nat) (st : EmitState) (r : CheckRec) : EmitState :=
  let buf := st.buffer ++ [r]
  if B ≤ buf.length then ⟨[], st.emitted ++ buf⟩ else ⟨buf, st.emitted⟩

/-- Embeds the worker's flush(): an empty buffer is left alone, otherwise
its contents are posted and the buffer cleared.  run calls this
unconditionally after all batch groups complete. -/
def flushEmit (st : EmitState) : EmitState :=
  if st.buffer = [] then st else ⟨[], st.emitted ++ st.buffer⟩

/-- Embeds the batch grouping loop of run: usernames.slice(i, i + size) for
i = 0, size, 2*size, ...  The size is B' + 1, so the grouping is total for
every parameter value (the source's size is at least 1). -/
def toBatches (B' : Nat) : List α → List (List α)
  | [] => []
  | x :: rest => (x :: rest.take B') :: toBatches B' (rest.drop B')
termination_by l => l.length
decreasing_by
  simp only [List.length_drop, List.length_cons]
  omega

/-- Worker result stream for a given sequence bs of HTTP batch groups: each
group is driven through withRetry/checkBatch and its records are pushed
through the IPC buffer; the final flush empties the buffer.  The group
sequence is a parameter because the groups run concurrently under the
limiter and may complete in any order; each group's records are pushed
contiguously by the synchronous loop in run. -/
def runWorkerOn (bs : List (List String)) (B : Nat)
    (resp : List String → Nat → BatchResp)
    (single : List String → Nat → String → Except String Bool)
    (retries : Nat) : List CheckRec :=
  (flushEmit (bs.foldl
    (fun st b => (processBatch b (resp b) (single b) retries).foldl (pushRec B) st)
    ⟨[], []⟩)).emitted

/-- Embeds the worker's run() in completion order equal to submission order:
the shard is grouped into HTTP batches of size B' + 1 and processed. -/
def runWorker (usernames : List String) (B' B : Nat)
    (resp : List String → Nat → BatchResp)
    (single : List String → Nat → String → Except String Bool)
    (retries : Nat) : List CheckRec :=
  runWorkerOn (toBatches B' usernames) B resp single retries

/-- State of the pLimit closure: the FIFO queue of not-yet-admitted tasks,
the multiset of currently running tasks (active = running.length), and the
history of admissions in order.  Tasks are identified by numbers. -/
structure LimState where
  queue : List Nat
  running : List Nat
  admitted : List Nat
deriving DecidableEq, Repr

/-- Embeds one invocation of pLimit's next(): if the queue is nonempty and
fewer than max tasks are active, the queue's head is admitted (shift). -/
def tryNext (max : Nat) (st : LimState) : LimState :=
  match st.queue with
  | [] => st
  | t :: rest =>
    if max ≤ st.running.length then st
    else ⟨rest, st.running ++ [t], st.admitted ++ [t]⟩

/-- Events observed by the limiter: a new task submission (the returned
closure pushes onto the queue and calls next) and the completion of a
running task (its finally handler decrements active and calls next). -/
inductive LimEvent where
  | submit (t : Nat)
  | complete (t : Nat)
deriving DecidableEq, Repr

/-- One limiter transition for one event. -/
def stepLim (max : Nat) (st : LimState) : LimEvent → LimState
  | .submit t => tryNext max { st with queue := st.queue ++ [t] }
  | .complete t => tryNext max { st with running := st.running.erase t }

/-- Limiter state after a sequence of events starting from the freshly
constructed closure (empty queue, no active tasks). -/
def runEvents (max : Nat) (evs : List LimEvent) : LimState :=
  evs.foldl (stepLim max) ⟨[], [], []⟩

/-- The tasks submitted in a sequence of events, in submission order. -/
def submitsOf (evs : List LimEvent) : List Nat :=
  evs.filterMap (fun e => match e with | .submit t => some t | .complete _ => none)

/-- Embeds out[k].push(v) on an array of arrays: the k-th list gets v
appended, everything else is unchanged. -/
def pushAt : List (List α) → Nat → α → List (List α)
  | [], _, _ => []
  | xs :: rest, 0, v => (xs ++ [v]) :: rest
  | xs :: rest, k + 1, v => xs :: pushAt rest k v

/-- Loop of shardArray: arr.forEach((v, i) => out[i % n].push(v)) starting
at index i with accumulator out. -/
def shardLoop (n : Nat) : List α → Nat → List (List α) → List (List α)
  | [], _, out => out
  | v :: rest, i, out => shardLoop n rest (i + 1) (pushAt out (i % n) v)

/-- Embeds index.js shardArray(arr, n): n initially empty shards, element at
index i pushed onto shard i % n. -/
def shardArray (arr : List α) (n : Nat) : List (List α) :=
  shardLoop n arr 0 (List.replicate n [])

/-- Specification list of the elements of arr whose index, offset by i,
is congruent to j modulo n, in order. -/
def residues (n : Nat) : Nat → Nat → List α → List α
  | _, _, [] => []
  | i, j, v :: rest => (if i % n = j then [v] else []) ++ residues n (i + 1) j rest

/-- Characters of the first tab-separated field of a line:
line.split('\t')[0]. -/
def takeUntilTab : List Char → List Char
  | [] => []
  | ch :: rest => if ch = '\t' then [] else ch :: takeUntilTab rest

/-- Whitespace trim over the character list, mirroring String.trim. -/
def trimChars (cs : List Char) : List Char :=
  ((cs.dropWhile Char.isWhitespace).reverse.dropWhile Char.isWhitespace).reverse

/-- Key of a ledger line: line.split('\t')[0].trim() (index.js, both the
retry input extraction and the ledger rewrite). -/
def keyOf (line : String) : String :=
  String.mk (trimChars (takeUntilTab line.data))

/-- Ledger line written for a still-failing key: username + tab + reason. -/
def mkLine (p : String × String) : String :=
  p.1 ++ "\t" ++ p.2

/-- Embeds resolvedUsers.add(u) (a JavaScript Set keyed by the username). -/
def addResolved (resolved : List String) (u : String) : List String :=
  if u ∈ resolved then resolved else resolved ++ [u]

/-- Embeds newErrors.set(k, v) (a JavaScript Map: an existing key's value is
replaced in place, a new key is appended). -/
def mapSet (m : List (String × String)) (k v : String) : List (String × String) :=
  if ∃ p ∈ m, p.1 = k then
    m.map (fun p => if p.1 = k then (k, v) else p)
  else m ++ [(k, v)]

/-- Embeds the retry-mode bookkeeping of processResult(r): an available of
true or false records the username as resolved; anything else records
username -> (r.error || 'Unknown') in the in-memory error map. -/
def processResultR (st : List String × List (String × String)) (r : CheckRec) :
    List String × List (String × String) :=
  match r.available with
  | some _ => (addResolved st.1 r.username, st.2)
  | none => (st.1, mapSet st.2 r.username (orFallback r.error "Unknown"))

/-- Resolved set and new-error map after a retry run whose workers emitted
the given records, in emission order. -/
def runRetryState (records : List CheckRec) : List String × List (String × String) :=
  records.foldl processResultR ([], [])

/-- Embeds the ledger rewrite at the end of a retry run: keep each original
line whose key was neither resolved nor re-errored, then append one
username tab reason line per entry of the new-error map. -/
def rewriteLedger (originalLines : List String) (resolved : List String)
    (newErrors : List (String × String)) : List String :=
  (originalLines.filter (fun line =>
    decide (keyOf line ∉ resolved ∧ ¬ ∃ p ∈ newErrors, p.1 = keyOf line)))
  ++ newErrors.map mkLine

/-- Deduplication keeping first occurrences with an explicit seen set,
mirroring [...new Set(list)]. -/
def dedupAux : List String → List String → List String
  | [], _ => []
  | x :: rest, seen =>
    if x ∈ seen then dedupAux rest seen else x :: dedupAux rest (x :: seen)

/-- Embeds [...new Set(list)]: first occurrences, in order. -/
def dedupKeepFirst (l : List String) : List String :=
  dedupAux l []

/-- The keys a retry run actually checks, from the ledger lines: the key
column of each line (split on tab, trimmed), dropping empty keys
(filter(Boolean)), deduplicated, and filtered to the inclusive length
bounds MIN_LEN = 3 and MAX_LEN = 10.  The temp-file round trip of the
source (write joined by newlines, re-read, re-split, re-trim) is the
identity on this list since keys contain no newline and are already
trimmed. -/
def checkedKeys (lines : List String) : List String :=
  (dedupKeepFirst ((lines.map keyOf).filter (fun s => decide (s ≠ "")))).filter
    (fun u => decide (3 ≤ u.length ∧ u.length ≤ 10))

/-! ### Helper lemmas: retry controller -/

theorem withRetryFrom_ok {α : Type} (attempt : Nat → Except String α) (i rem : Nat)
    (v : α) (h : attempt i = .ok v) : withRetryFrom attempt i rem = (.ok v, i + 1) := by
  cases rem <;> simp [withRetryFrom, h]

theorem withRetryFrom_fatal {α : Type} (attempt : Nat → Except String α) (i rem : Nat)
    (e : String) (h : attempt i = .error e) (hf : isRetryable e = false) :
    withRetryFrom attempt i rem = (.error e, i + 1) := by
  cases rem <;> simp [withRetryFrom, h, hf]

theorem withRetryFrom_exhaust {α : Type} (attempt : Nat → Except String α)
    (emsg : Nat → String) :
    ∀ (rem i : Nat),
      (∀ k, i ≤ k → k ≤ i + rem → attempt k = .error (emsg k) ∧ isRetryable (emsg k) = true) →
      withRetryFrom attempt i rem = (.error (emsg (i + rem)), i + rem + 1) := by
  intro rem
  induction rem with
  | zero =>
    intro i h
    obtain ⟨ha, _⟩ := h i (le_refl i) (by omega)
    simp [withRetryFrom, ha]
  | succ r ih =>
    intro i h
    obtain ⟨ha, hr⟩ := h i (le_refl i) (by omega)
    have h2 := ih (i + 1) (fun k hk1 hk2 => h k (by omega) (by omega))
    have h3 : i + 1 + r = i + (r + 1) := by omega
    rw [h3] at h2
    simp [withRetryFrom, ha, hr, h2]

theorem withRetryFrom_attempts_le {α : Type} (attempt : Nat → Except String α) :
    ∀ (rem i : Nat), (withRetryFrom attempt i rem).2 ≤ i + rem + 1 := by
  intro rem
  induction rem with
  | zero =>
    intro i
    cases h : attempt i <;> simp [withRetryFrom, h]
  | succ r ih =>
    intro i
    cases h : attempt i with
    | ok v => simp [withRetryFrom, h]
    | error e =>
      by_cases hr : isRetryable e
      · have h4 := ih (i + 1)
        simp [withRetryFrom, h, hr]
        omega
      · simp [withRetryFrom, h, hr]

theorem withRetryFrom_attempts_ge {α : Type} (attempt : Nat → Except String α) :
    ∀ (rem i : Nat), i + 1 ≤ (withRetryFrom attempt i rem).2 := by
  intro rem
  induction rem with
  | zero =>
    intro i
    cases h : attempt i <;> simp [withRetryFrom, h]
  | succ r ih =>
    intro i
    cases h : attempt i with
    | ok v => simp [withRetryFrom, h]
    | error e =>
      by_cases hr : isRetryable e
      · have := ih (i + 1)
        simp [withRetryFrom, h, hr]
        omega
      · simp [withRetryFrom, h, hr]

/-! ### Helper lemmas: limiter -/

theorem tryNext_running_le (max : Nat) (st : LimState)
    (h : st.running.length ≤ max) : (tryNext max st).running.length ≤ max := by
  rcases hq : st.queue with _ | ⟨t, rest⟩
  · simpa [tryNext, hq]
  · by_cases hm : max ≤ st.running.length
    · simpa [tryNext, hq, hm]
    · simp [tryNext, hq, hm, List.length_append]
      omega

theorem stepLim_running_le (max : Nat) (st : LimState) (e : LimEvent)
    (h : st.running.length ≤ max) : (stepLim max st e).running.length ≤ max := by
  cases e with
  | submit t => exact tryNext_running_le max _ h
  | complete t =>
    refine tryNext_running_le max _ ?_
    exact le_trans (List.erase_sublist t st.running).length_le h

theorem tryNext_concat (max : Nat) (st : LimState) :
    (tryNext max st).admitted ++ (tryNext max st).queue = st.admitted ++ st.queue := by
  rcases hq : st.queue with _ | ⟨t, rest⟩
  · simp [tryNext, hq]
  · by_cases hm : max ≤ st.running.length
    · simp [tryNext, hq, hm]
    · simp [tryNext, hq, hm]

theorem stepLim_concat (max : Nat) (st : LimState) (e : LimEvent) :
    (stepLim max st e).admitted ++ (stepLim max st e).queue =
      st.admitted ++ st.queue ++
        (match e with | .submit t => [t] | .complete _ => []) := by
  cases e with
  | submit t =>
    have := tryNext_concat max { st with queue := st.queue ++ [t] }
    simpa using this
  | complete t =>
    have := tryNext_concat max { st with running := st.running.erase t }
    simpa using this

theorem runEvents_aux_le (max : Nat) :
    ∀ (evs : List LimEvent) (st : LimState), st.running.length ≤ max →
      (evs.foldl (stepLim max) st).running.length ≤ max := by
  intro evs
  induction evs with
  | nil => intro st h; exact h
  | cons e rest ih =>
    intro st h
    exact ih _ (stepLim_running_le max st e h)

theorem runEvents_aux_fifo (max : Nat) :
    ∀ (evs : List LimEvent) (st : LimState),
      (evs.foldl (stepLim max) st).admitted ++ (evs.foldl (stepLim max) st).queue =
        st.admitted ++ st.queue ++ submitsOf evs := by
  intro evs
  induction evs with
  | nil => intro st; simp [submitsOf]
  | cons e rest ih =>
    intro st
    have h1 := ih (stepLim max st e)
    have h2 := stepLim_concat max st e
    cases e with
    | submit t =>
      simp only [List.foldl_cons] at *
      rw [h1, h2]
      simp [submitsOf, List.filterMap_cons]
    | complete t =>
      simp only [List.foldl_cons] at *
      rw [h1, h2]
      simp [submitsOf, List.filterMap_cons]

/-! ### Claim theorems: limiter and retry controller -/

/-- Claim C4: for every concurrency bound and every pattern of submit and
complete events (including bursts larger than the bound), the number of
concurrently running tasks never exceeds the bound; the admission history
followed by the pending queue is exactly the submission sequence, so queued
tasks are admitted in FIFO submission order; and when the bound is saturated
and the queue is nonempty, a completion admits exactly the queue's head,
keeping the running count at the bound. -/
theorem pLimit_bound_and_fifo : ∀ (max : Nat) (evs : List LimEvent),
    (runEvents max evs).running.length ≤ max
    ∧ (runEvents max evs).admitted ++ (runEvents max evs).queue = submitsOf evs
    ∧ ∀ (t d : Nat),
        (runEvents max evs).running.length = max →
        0 < max →
        (runEvents max evs).queue ≠ [] →
        t ∈ (runEvents max evs).running →
        (stepLim max (runEvents max evs) (.complete t)).admitted
          = (runEvents max evs).admitted ++ [(runEvents max evs).queue.headD d]
        ∧ (stepLim max (runEvents max evs) (.complete t)).running.length = max := by
  intro max evs
  refine ⟨runEvents_aux_le max evs _ (Nat.zero_le max), ?_, ?_⟩
  · have h := runEvents_aux_fifo max evs ⟨[], [], []⟩
    simpa [runEvents] using h
  · set st := runEvents max evs with hst
    intro t d h1 h2 h3 h4
    rcases hq : st.queue with _ | ⟨q0, rest⟩
    · exact absurd hq h3
    · have he : (st.running.erase t).length = max - 1 := by
        rw [List.length_erase_of_mem h4, h1]
      have hlt : ¬ (max ≤ (st.running.erase t).length) := by omega
      constructor
      · simp [stepLim, tryNext, hq, hlt]
      · simp [stepLim, tryNext, hq, hlt, List.length_append]
        omega

/-- Witness for C4: with bound 1, after submitting tasks 0 and 1 only one is
running, and completing task 0 admits the queued task 1. -/
theorem pLimit_bound_and_fifo_witness :
    (runEvents 1 [.submit 0, .submit 1]).running.length ≤ 1
    ∧ (stepLim 1 (runEvents 1 [.submit 0, .submit 1]) (.complete 0)).admitted
        = (runEvents 1 [.submit 0, .submit 1]).admitted
          ++ [(runEvents 1 [.submit 0, .submit 1]).queue.headD 7] := by
  constructor
  · exact (pLimit_bound_and_fifo 1 [.submit 0, .submit 1]).1
  · exact ((pLimit_bound_and_fifo 1 [.submit 0, .submit 1]).2.2 0 7
      (by decide) (by decide) (by decide) (by decide)).1

/-- Claim C5: a first-attempt failure that is not retryable is returned
immediately as a terminal error after exactly one attempt; if every attempt
up to the budget fails with a retryable error, the result is a terminal
error carrying the last attempt's message after retries + 1 attempts; the
controller never consumes more than retries + 1 attempts; and the source's
classification marks rate limits, 5xx, and connection timeouts retryable
while other messages are fatal. -/
theorem withRetry_classification : 
    (∀ (α : Type) (attempt : Nat → Except String α) (e : String) (retries : Nat),
      attempt 0 = .error e → isRetryable e = false →
      withRetry attempt retries = (.error e, 1))
    ∧ (∀ (α : Type) (attempt : Nat → Except String α) (emsg : Nat → String) (retries : Nat),
      (∀ k, k ≤ retries → attempt k = .error (emsg k) ∧ isRetryable (emsg k) = true) →
      withRetry attempt retries = (.error (emsg retries), retries + 1))
    ∧ (∀ (α : Type) (attempt : Nat → Except String α) (retries : Nat),
      (withRetry attempt retries).2 ≤ retries + 1)
    ∧ (isRetryable "Rate limited" = true ∧ isRetryable "Server error (503)" = true
       ∧ isRetryable "UND_ERR_CONNECT_TIMEOUT" = true ∧ isRetryable "HTTP 404" = false
       ∧ isRetryable "Invalid response" = false) := by
  refine ⟨?_, ?_, ?_, ?_⟩
  · intro α attempt e retries h0 hf
    exact withRetryFrom_fatal attempt 0 retries e h0 hf
  · intro α attempt emsg retries h
    have := withRetryFrom_exhaust attempt emsg retries 0
      (fun k hk1 hk2 => h k (by omega))
    simpa [withRetry] using this
  · intro α attempt retries
    have := withRetryFrom_attempts_le attempt retries 0
    simpa [withRetry] using this
  · exact ⟨by decide, by decide, by decide, by decide, by decide⟩

/-- Witness for C5: a non-retryable message terminates on the first attempt;
an all-retryable failure sequence exhausts the budget and reports the last
message. -/
theorem withRetry_classification_witness :
    withRetry (fun _ => (.error "Invalid response" : Except String Bool)) 5
      = (.error "Invalid response", 1)
    ∧ withRetry (fun k => (.error (if k = 0 then "Rate limited" else "timeout")
        : Except String Bool)) 1
      = (.error (if 1 = 0 then "Rate limited" else "timeout"), 2) := by
  constructor
  · exact withRetry_classification.1 Bool _ "Invalid response" 5 rfl (by decide)
  · refine withRetry_classification.2.1 Bool _
      (fun k => if k = 0 then "Rate limited" else "timeout") 1 ?_
    intro k hk
    refine ⟨rfl, ?_⟩
    rcases k with _ | k
    · decide
    · simp only [Nat.succ_ne_zero, if_false]
      decide

/-- Claim C6: for every attempt index, the backoff delay after a rate-limit
classified error is strictly greater than any backoff delay after a generic
retryable error at the same index, for all jitter values in [0, 500); a
rate-limit message is retryable, and a first-attempt rate-limit failure with
a positive retry budget consumes at least a second attempt. -/
theorem backoff_rate_limit_dominates :
    (∀ (i : Nat) (j1 j2 : ℚ), 0 ≤ j1 → j1 < 500 → 0 ≤ j2 → j2 < 500 →
      backoffDelay false i j2 < backoffDelay true i j1)
    ∧ (∀ e, isRateLimitMsg e = true → isRetryable e = true)
    ∧ (∀ (α : Type) (attempt : Nat → Except String α) (retries : Nat) (e : String),
      attempt 0 = .error e → isRateLimitMsg e = true → 1 ≤ retries →
      2 ≤ (withRetry attempt retries).2) := by
  refine ⟨?_, ?_, ?_⟩
  · intro i j1 j2 hj1 hj1' hj2 hj2'
    have hp : (1 : ℚ) ≤ 2 ^ i := by
      induction i with
      | zero => norm_num
      | succ n ih => rw [pow_succ]; nlinarith
    have e1 : backoffDelay true i j1 = 1000 * 2 ^ i + j1 := by simp [backoffDelay]
    have e2 : backoffDelay false i j2 = 300 * 2 ^ i + j2 := by simp [backoffDelay]
    rw [e1, e2]
    nlinarith [hp]
  · intro e h
    simp [isRetryable, h]
  · intro α attempt retries e h0 hr h1
    obtain ⟨r, rfl⟩ : ∃ r, retries = r + 1 := ⟨retries - 1, by omega⟩
    have hre : isRetryable e = true := by simp [isRetryable, hr]
    have hge := withRetryFrom_attempts_ge attempt r 1
    simp [withRetry, withRetryFrom, h0, hre]
    omega

/-- Witness for C6: at attempt index 0 with zero jitter, the rate-limit
backoff exceeds the generic backoff, and a first-attempt 429 with budget 1 is
retried at least once. -/
theorem backoff_rate_limit_dominates_witness :
    backoffDelay false 0 0 < backoffDelay true 0 0
    ∧ 2 ≤ (withRetry (fun _ => (.error "Rate limited" : Except String Bool)) 1).2 := by
  constructor
  · exact backoff_rate_limit_dominates.1 0 0 0 (by decide) (by decide) (by decide) (by decide)
  · exact backoff_rate_limit_dominates.2.2 Bool _ 1 "Rate limited" rfl (by decide) (by decide)

/-! ### Helper lemmas: batch requester -/

theorem fallbackRec_username (single : String → Except String Bool) (u : String) :
    (fallbackRec single u).username = u := by
  cases h : single u <;> simp [fallbackRec, h]

theorem fallback_usernames_map (single : String → Except String Bool) (batch : List String) :
    (batch.map (fallbackRec single)).map (fun rc => rc.username) = batch := by
  rw [List.map_map]
  have h : ∀ u ∈ batch, ((fun rc => rc.username) ∘ fallbackRec single) u = id u := by
    intro u _
    simpa using fallbackRec_username single u
  rw [List.map_congr_left h, List.map_id]

theorem fallbackRec_pointwise (single : String → Except String Bool) (u : String) :
    (∃ b, single u = .ok b ∧ fallbackRec single u = ⟨u, some b, none⟩)
    ∨ (∃ e, single u = .error e ∧ fallbackRec single u = ⟨u, none, some e⟩) := by
  cases h : single u with
  | ok b => exact Or.inl ⟨b, rfl, by simp [fallbackRec, h]⟩
  | error e => exact Or.inr ⟨e, rfl, by simp [fallbackRec, h]⟩

theorem length_one_ex (batch : List String) (h : batch.length = 1) :
    ∃ x, batch = [x] := by
  rcases batch with _ | ⟨x, _ | ⟨y, t⟩⟩
  · simp at h
  · exact ⟨x, rfl⟩
  · simp at h

theorem checkBatch_not_accepted (batch : List String) (r : BatchResp)
    (single : String → Except String Bool) (h2 : 2 ≤ batch.length)
    (hacc : acceptedResp r = false) :
    checkBatch batch r single = ⟨.ok (batch.map (fallbackRec single)), batch, true⟩ := by
  have hne : ¬ batch.length = 1 := by omega
  cases r with
  | exn m => simp [checkBatch, hne]
  | resp s body =>
    cases body with
    | malformed => simp [checkBatch, hne]
    | jnull => simp [checkBatch, hne]
    | scalar => simp [checkBatch, hne]
    | arrTop => simp [checkBatch, hne]
    | objResults rs =>
      have hs : ¬ (s = 200 ∨ s = 201) := by
        intro hor
        rcases hor with h | h <;> simp [acceptedResp, h] at hacc
      simp [checkBatch, hne, hs]
    | objMap m =>
      have hs : ¬ (s = 200 ∨ s = 201) := by
        intro hor
        rcases hor with h | h <;> simp [acceptedResp, h] at hacc
      simp [checkBatch, hne, hs]

/-! ### Claim theorems: batch requester -/

/-- Claim C3: a one-key batch issues a single-key GET and posts no batch
call; a multi-key batch whose POST fails, times out, or yields a response
outside the two accepted shapes is resolved by one single-key query per key
of the batch, each independently classified as a success or a per-key error;
and an accepted response shape issues no single-key queries. -/
theorem checkBatch_single_and_fallback :
    ∀ (batch : List String) (r : BatchResp) (single : String → Except String Bool),
    (batch.length = 1 →
      (checkBatch batch r single).singles = batch
      ∧ (checkBatch batch r single).postedBatch = false)
    ∧ (2 ≤ batch.length → acceptedResp r = false →
      checkBatch batch r single = ⟨.ok (batch.map (fallbackRec single)), batch, true⟩
      ∧ (batch.map (fallbackRec single)).map (fun rc => rc.username) = batch
      ∧ ∀ u, (∃ b, single u = .ok b ∧ fallbackRec single u = ⟨u, some b, none⟩)
           ∨ (∃ e, single u = .error e ∧ fallbackRec single u = ⟨u, none, some e⟩))
    ∧ (2 ≤ batch.length → acceptedResp r = true →
      (checkBatch batch r single).singles = []) := by
  intro batch r single
  refine ⟨?_, ?_, ?_⟩
  · intro h1
    obtain ⟨x, rfl⟩ := length_one_ex batch h1
    cases hs : single x <;> simp [checkBatch, hs]
  · intro h2 hacc
    exact ⟨checkBatch_not_accepted batch r single h2 hacc,
      fallback_usernames_map single batch, fallbackRec_pointwise single⟩
  · intro h2 hacc
    have hne : ¬ batch.length = 1 := by omega
    cases r with
    | exn m => simp [acceptedResp] at hacc
    | resp s body =>
      cases body with
      | malformed => simp [acceptedResp] at hacc
      | jnull => simp [acceptedResp] at hacc
      | scalar => simp [acceptedResp] at hacc
      | arrTop => simp [acceptedResp] at hacc
      | objResults rs =>
        have hs : s = 200 ∨ s = 201 := by
          simpa [acceptedResp] using hacc
        simp [checkBatch, hne, hs]
      | objMap m =>
        have hs : s = 200 ∨ s = 201 := by
          simpa [acceptedResp] using hacc
        simp [checkBatch, hne, hs]

/-- Witness for C3: a singleton batch goes through the single-key path, a
500-status malformed-body batch is resolved by the per-key fallback, and an
accepted map-form response issues no single-key queries. -/
theorem checkBatch_single_and_fallback_witness :
    (checkBatch ["abc"] (.exn "boom") (fun _ => .ok true)).singles = ["abc"]
    ∧ checkBatch ["abc", "abd"] (.resp 500 .malformed)
        (fun u => if u = "abc" then .ok true else .error "x")
      = ⟨.ok (["abc", "abd"].map (fallbackRec
          (fun u => if u = "abc" then .ok true else .error "x"))), ["abc", "abd"], true⟩
    ∧ (checkBatch ["abc", "abd"] (.resp 200 (.objMap (fun _ => none)))
        (fun _ => .ok true)).singles = [] := by
  refine ⟨?_, ?_, ?_⟩
  · exact ((checkBatch_single_and_fallback ["abc"] (.exn "boom") (fun _ => .ok true)).1
      (by decide)).1
  · exact ((checkBatch_single_and_fallback ["abc", "abd"] (.resp 500 .malformed)
      (fun u => if u = "abc" then .ok true else .error "x")).2.1 (by decide) (by decide)).1
  · exact (checkBatch_single_and_fallback ["abc", "abd"] (.resp 200 (.objMap (fun _ => none)))
      (fun _ => .ok true)).2.2 (by decide) (by decide)

/-- Claim C9: a 200/201 batch response that is an object without a results
array is accepted as the map form: no single-key fallback is issued, the
batch POST is the only network call, every key of the batch gets one record
whose availability is null for a non-boolean or absent value, the retry
controller returns after a single attempt, and processing such a record in
retry mode records the key with the default reason Unknown. -/
theorem checkBatch_mapForm_defaults :
    ∀ (batch : List String) (s : Nat) (m : String → Option (Option Bool))
      (single : Nat → String → Except String Bool) (retries : Nat),
    2 ≤ batch.length → (s = 200 ∨ s = 201) →
    ((checkBatch batch (.resp s (.objMap m)) (single 0)).singles = []
      ∧ (checkBatch batch (.resp s (.objMap m)) (single 0)).postedBatch = true)
    ∧ (checkBatch batch (.resp s (.objMap m)) (single 0)).outcome
        = .ok (batch.map (fun u => ⟨u, mapAvail (m u), none⟩))
    ∧ withRetry (fun k => (checkBatch batch (.resp s (.objMap m)) (single k)).outcome) retries
        = (.ok (batch.map (fun u => ⟨u, mapAvail (m u), none⟩)), 1)
    ∧ ∀ (u : String) (st : List String × List (String × String)),
        (∀ b, m u ≠ some (some b)) →
        mapAvail (m u) = none
        ∧ processResultR st ⟨u, mapAvail (m u), none⟩ = (st.1, mapSet st.2 u "Unknown") := by
  intro batch s m single retries h2 hs
  have hne : ¬ batch.length = 1 := by omega
  refine ⟨⟨?_, ?_⟩, ?_, ?_, ?_⟩
  · simp [checkBatch, hne, hs]
  · simp [checkBatch, hne, hs]
  · simp [checkBatch, hne, hs]
  · have hat : (fun k => (checkBatch batch (.resp s (.objMap m)) (single k)).outcome) 0
        = .ok (batch.map (fun u => ⟨u, mapAvail (m u), none⟩)) := by
      simp [checkBatch, hne, hs]
    exact withRetryFrom_ok _ 0 retries _ hat
  · intro u st hm
    have hma : mapAvail (m u) = none := by
      rcases hmu : m u with _ | ⟨_ | b⟩
      · simp [mapAvail]
      · simp [mapAvail]
      · exact absurd hmu (hm _)
    refine ⟨hma, ?_⟩
    simp [processResultR, hma, orFallback]

/-- Witness for C9: a two-key batch with a map-form response mentioning only
the first key resolves in one attempt with no fallback, and the absent
second key is recorded with reason Unknown. -/
theorem checkBatch_mapForm_defaults_witness :
    withRetry (fun k => (checkBatch ["abc", "abd"]
        (.resp 200 (.objMap (fun u => if u = "abc" then some (some true) else none)))
        ((fun _ _ => (.error "x" : Except String Bool)) k)).outcome) 5
      = (.ok (["abc", "abd"].map (fun u =>
          ⟨u, mapAvail ((fun u => if u = "abc" then some (some true) else none) u), none⟩)), 1)
    ∧ processResultR ([], [])
        ⟨"abd", mapAvail ((fun u => if u = "abc" then some (some true) else none) "abd"), none⟩
      = ([], mapSet [] "abd" "Unknown") := by
  constructor
  · exact (checkBatch_mapForm_defaults ["abc", "abd"] 200
      (fun u => if u = "abc" then some (some true) else none)
      (fun _ _ => .error "x") 5 (by decide) (Or.inl rfl)).2.2.1
  · exact ((checkBatch_mapForm_defaults ["abc", "abd"] 200
      (fun u => if u = "abc" then some (some true) else none)
      (fun _ _ => .error "x") 5 (by decide) (Or.inl rfl)).2.2.2 "abd" ([], [])
      (by intro b; cases b <;> decide)).2

/-! ### Helper lemmas: retry ledger bookkeeping -/

theorem mem_addResolved (res : List String) (w u : String) :
    u ∈ addResolved res w ↔ u = w ∨ u ∈ res := by
  by_cases h : w ∈ res
  · simp only [addResolved, if_pos h]
    constructor
    · exact fun hu => Or.inr hu
    · rintro (rfl | hu)
      · exact h
      · exact hu
  · simp [addResolved, if_neg h, List.mem_append, or_comm]

theorem mapSet_keys_mem (m : List (String × String)) (k v a : String) :
    (∃ w, (a, w) ∈ mapSet m k v) ↔ (∃ w, (a, w) ∈ m) ∨ a = k := by
  by_cases h : ∃ p ∈ m, p.1 = k
  · simp only [mapSet, if_pos h]
    constructor
    · rintro ⟨w, hw⟩
      rw [List.mem_map] at hw
      obtain ⟨p, hp, he⟩ := hw
      by_cases hk : p.1 = k
      · rw [if_pos hk] at he
        have : k = a := congrArg Prod.fst he
        exact Or.inr this.symm
      · rw [if_neg hk] at he
        exact Or.inl ⟨w, he ▸ hp⟩
    · rintro (⟨w, hw⟩ | rfl)
      · by_cases hk : a = k
        · subst hk
          refine ⟨v, ?_⟩
          rw [List.mem_map]
          exact ⟨(a, w), hw, by simp⟩
        · refine ⟨w, ?_⟩
          rw [List.mem_map]
          exact ⟨(a, w), hw, by simp [hk]⟩
      · obtain ⟨p, hp, hpk⟩ := h
        refine ⟨v, ?_⟩
        rw [List.mem_map]
        exact ⟨p, hp, by simp [hpk]⟩
  · simp only [mapSet, if_neg h]
    constructor
    · rintro ⟨w, hw⟩
      rw [List.mem_append] at hw
      rcases hw with hw | hw
      · exact Or.inl ⟨w, hw⟩
      · simp at hw
        exact Or.inr hw.1
    · rintro (⟨w, hw⟩ | rfl)
      · exact ⟨w, by rw [List.mem_append]; exact Or.inl hw⟩
      · exact ⟨v, by rw [List.mem_append]; simp⟩

theorem mapSet_fst_of_mem (m : List (String × String)) (k v : String)
    (h : ∃ p ∈ m, p.1 = k) :
    (mapSet m k v).map Prod.fst = m.map Prod.fst := by
  simp only [mapSet, if_pos h, List.map_map]
  apply List.map_congr_left
  intro p _
  by_cases hk : p.1 = k
  · simp [hk]
  · simp [hk]

theorem mapSet_fst_of_not_mem (m : List (String × String)) (k v : String)
    (h : ¬ ∃ p ∈ m, p.1 = k) :
    (mapSet m k v).map Prod.fst = m.map Prod.fst ++ [k] := by
  simp [mapSet, if_neg h]

theorem mapSet_keys_nodup (m : List (String × String)) (k v : String)
    (hn : (m.map Prod.fst).Nodup) : ((mapSet m k v).map Prod.fst).Nodup := by
  by_cases h : ∃ p ∈ m, p.1 = k
  · rw [mapSet_fst_of_mem m k v h]
    exact hn
  · rw [mapSet_fst_of_not_mem m k v h]
    have hk : k ∉ m.map Prod.fst := by
      intro hmem
      rw [List.mem_map] at hmem
      obtain ⟨p, hp, hpk⟩ := hmem
      exact h ⟨p, hp, hpk⟩
    simp [List.nodup_append, hn, hk]

theorem runRetryState_resolved_spec :
    ∀ (records : List CheckRec) (init : List String × List (String × String)) (u : String),
      u ∈ (records.foldl processResultR init).1 ↔
        u ∈ init.1 ∨ ∃ r ∈ records, r.username = u ∧ ∃ b, r.available = some b := by
  intro records
  induction records with
  | nil => intro init u; simp
  | cons r rs ih =>
    intro init u
    rw [List.foldl_cons, ih]
    cases ha : r.available with
    | some b =>
      have h1 : (processResultR init r).1 = addResolved init.1 r.username := by
        simp [processResultR, ha]
      rw [h1, mem_addResolved]
      constructor
      · rintro ((rfl | hu) | ⟨x, hx, hxu, b', hb'⟩)
        · exact Or.inr ⟨r, List.mem_cons_self r rs, rfl, b, ha⟩
        · exact Or.inl hu
        · exact Or.inr ⟨x, List.mem_cons_of_mem r hx, hxu, b', hb'⟩
      · rintro (hu | ⟨x, hx, hxu, b', hb'⟩)
        · exact Or.inl (Or.inr hu)
        · rcases List.mem_cons.mp hx with rfl | hx'
          · exact Or.inl (Or.inl hxu.symm)
          · exact Or.inr ⟨x, hx', hxu, b', hb'⟩
    | none =>
      have h1 : (processResultR init r).1 = init.1 := by
        simp [processResultR, ha]
      rw [h1]
      constructor
      · rintro (hu | ⟨x, hx, hxu, b', hb'⟩)
        · exact Or.inl hu
        · exact Or.inr ⟨x, List.mem_cons_of_mem r hx, hxu, b', hb'⟩
      · rintro (hu | ⟨x, hx, hxu, b', hb'⟩)
        · exact Or.inl hu
        · rcases List.mem_cons.mp hx with rfl | hx'
          · rw [ha] at hb'
            cases hb'
          · exact Or.inr ⟨x, hx', hxu, b', hb'⟩

theorem runRetryState_newErrors_spec :
    ∀ (records : List CheckRec) (init : List String × List (String × String)) (k : String),
      (∃ v, (k, v) ∈ (records.foldl processResultR init).2) ↔
        (∃ v, (k, v) ∈ init.2) ∨ ∃ r ∈ records, r.username = k ∧ r.available = none := by
  intro records
  induction records with
  | nil => intro init k; simp
  | cons r rs ih =>
    intro init k
    rw [List.foldl_cons, ih]
    cases ha : r.available with
    | some b =>
      have h1 : (processResultR init r).2 = init.2 := by
        simp [processResultR, ha]
      rw [h1]
      constructor
      · rintro (hu | ⟨x, hx, hxu, hb'⟩)
        · exact Or.inl hu
        · exact Or.inr ⟨x, List.mem_cons_of_mem r hx, hxu, hb'⟩
      · rintro (hu | ⟨x, hx, hxu, hb'⟩)
        · exact Or.inl hu
        · rcases List.mem_cons.mp hx with rfl | hx'
          · rw [ha] at hb'
            cases hb'
          · exact Or.inr ⟨x, hx', hxu, hb'⟩
    | none =>
      have h1 : (processResultR init r).2
          = mapSet init.2 r.username (orFallback r.error "Unknown") := by
        simp [processResultR, ha]
      rw [h1, mapSet_keys_mem]
      constructor
      · rintro ((hu | rfl) | ⟨x, hx, hxu, hb'⟩)
        · exact Or.inl hu
        · exact Or.inr ⟨r, List.mem_cons_self r rs, rfl, ha⟩
        · exact Or.inr ⟨x, List.mem_cons_of_mem r hx, hxu, hb'⟩
      · rintro (hu | ⟨x, hx, hxu, hb'⟩)
        · exact Or.inl (Or.inl hu)
        · rcases List.mem_cons.mp hx with rfl | hx'
          · exact Or.inl (Or.inr hxu.symm)
          · exact Or.inr ⟨x, hx', hxu, hb'⟩

theorem runRetryState_keys_nodup :
    ∀ (records : List CheckRec) (init : List String × List (String × String)),
      (init.2.map Prod.fst).Nodup →
      (((records.foldl processResultR init).2).map Prod.fst).Nodup := by
  intro records
  induction records with
  | nil => intro init h; exact h
  | cons r rs ih =>
    intro init h
    rw [List.foldl_cons]
    apply ih
    cases ha : r.available with
    | some b => simpa [processResultR, ha] using h
    | none =>
      have h1 : (processResultR init r).2
          = mapSet init.2 r.username (orFallback r.error "Unknown") := by
        simp [processResultR, ha]
      rw [h1]
      exact mapSet_keys_nodup _ _ _ h

theorem mem_rewriteLedger (lines : List String) (res : List String)
    (new : List (String × String)) (line : String) :
    line ∈ rewriteLedger lines res new ↔
      (line ∈ lines ∧ keyOf line ∉ res ∧ ∀ p ∈ new, p.1 ≠ keyOf line)
      ∨ ∃ p ∈ new, line = mkLine p := by
  unfold rewriteLedger
  rw [List.mem_append, List.mem_filter]
  simp only [decide_eq_true_eq, List.mem_map]
  constructor
  · rintro (⟨h1, h2, h3⟩ | ⟨p, hp, he⟩)
    · exact Or.inl ⟨h1, h2, fun p hp hpe => h3 ⟨p, hp, hpe⟩⟩
    · exact Or.inr ⟨p, hp, he.symm⟩
  · rintro (⟨h1, h2, h3⟩ | ⟨p, hp, he⟩)
    · exact Or.inl ⟨h1, h2, fun ⟨p, hp, hpe⟩ => h3 p hp hpe⟩
    · exact Or.inr ⟨p, hp, he.symm⟩

/-! ### Claim theorem: ledger rewrite (C2) -/

/-- Claim C2: after a completed retry run the rewritten ledger consists of
exactly the previous ledger lines whose key was neither resolved nor
re-errored this run, plus one key-tab-reason line per key still failing this
run; a key is resolved exactly when some record anywhere in the run carried
available true or false (even if the key was never explicitly retried), a key
is re-errored exactly when some record carried a non-boolean availability,
and the still-failing map holds each key at most once. -/
theorem retry_ledger_rewrite_spec :
    ∀ (records : List CheckRec) (lines : List String),
    (∀ u, u ∈ (runRetryState records).1 ↔
      ∃ r ∈ records, r.username = u ∧ ∃ b, r.available = some b)
    ∧ (∀ k, (∃ v, (k, v) ∈ (runRetryState records).2) ↔
      ∃ r ∈ records, r.username = k ∧ r.available = none)
    ∧ (∀ line, line ∈ rewriteLedger lines (runRetryState records).1 (runRetryState records).2 ↔
      (line ∈ lines ∧ keyOf line ∉ (runRetryState records).1
        ∧ ∀ p ∈ (runRetryState records).2, p.1 ≠ keyOf line)
      ∨ ∃ p ∈ (runRetryState records).2, line = mkLine p)
    ∧ ((runRetryState records).2.map Prod.fst).Nodup := by
  intro records lines
  refine ⟨?_, ?_, ?_, ?_⟩
  · intro u
    have h := runRetryState_resolved_spec records ([], []) u
    simpa [runRetryState] using h
  · intro k
    have h := runRetryState_newErrors_spec records ([], []) k
    simpa [runRetryState] using h
  · intro line
    exact mem_rewriteLedger lines _ _ line
  · exact runRetryState_keys_nodup records ([], []) (by simp)

/-! ### Claim C8: retry-ledger idempotence -/

/-- Counterexample to C8 as stated: a ledger entry abc with reason timeout
that fails again with the new reason Rate limited is rewritten as abc tab
Rate limited, so the rewritten ledger is not the original modulo order. -/
theorem retry_ledger_idempotence_counterexample :
    rewriteLedger ["abc\ttimeout"] [] [("abc", "Rate limited")] = ["abc\tRate limited"]
    ∧ ¬ (rewriteLedger ["abc\ttimeout"] [] [("abc", "Rate limited")]).Perm ["abc\ttimeout"] := by
  exact ⟨by decide, by decide⟩

/-- Claim C8 (amended): in a retry run in which zero ledger entries resolve
and every re-errored key comes from the ledger, the rewritten ledger has
exactly the original ledger's key set; and the rewritten ledger is a
permutation of the original whenever, in addition, each re-errored key's
new key-tab-reason line coincides with an original line and the original
ledger's keys are pairwise distinct (a sufficient condition: the rewrite
can also reproduce the original in runs outside it).  The hypothesis on
keyOf states that re-errored keys are clean tokens (no tab, no surrounding
whitespace), which holds for every key a run can record. -/
theorem retry_ledger_key_preservation :
    ∀ (lines : List String) (new : List (String × String)),
    (∀ p ∈ new, keyOf (mkLine p) = p.1) →
    ((∀ p ∈ new, ∃ l ∈ lines, keyOf l = p.1) →
      ∀ k, (∃ l ∈ rewriteLedger lines [] new, keyOf l = k) ↔ (∃ l ∈ lines, keyOf l = k))
    ∧ ((∀ p ∈ new, mkLine p ∈ lines) → (lines.map keyOf).Nodup → (new.map Prod.fst).Nodup →
      (rewriteLedger lines [] new).Perm lines) := by
  intro lines new hclean
  constructor
  · intro hsub k
    constructor
    · rintro ⟨l, hl, rfl⟩
      rcases (mem_rewriteLedger lines [] new l).mp hl with ⟨h1, _, _⟩ | ⟨p, hp, rfl⟩
      · exact ⟨l, h1, rfl⟩
      · obtain ⟨l', hl', he⟩ := hsub p hp
        exact ⟨l', hl', he.trans (hclean p hp).symm⟩
    · rintro ⟨l, hl, rfl⟩
      by_cases hex : ∃ p ∈ new, p.1 = keyOf l
      · obtain ⟨p, hp, hpk⟩ := hex
        refine ⟨mkLine p, ?_, ?_⟩
        · exact (mem_rewriteLedger lines [] new (mkLine p)).mpr (Or.inr ⟨p, hp, rfl⟩)
        · rw [hclean p hp, hpk]
      · refine ⟨l, ?_, rfl⟩
        exact (mem_rewriteLedger lines [] new l).mpr
          (Or.inl ⟨hl, by simp, fun p hp hpe => hex ⟨p, hp, hpe⟩⟩)
  · intro hin hnl hnn
    have hladup : lines.Nodup := List.Nodup.of_map keyOf hnl
    have hnodup_new : new.Nodup := List.Nodup.of_map Prod.fst hnn
    have hmapn : (new.map mkLine).Nodup := by
      apply List.Nodup.map_on ?_ hnodup_new
      intro x hx y hy he
      have h1 : x.1 = y.1 := by
        have h2 := congrArg keyOf he
        rw [hclean x hx, hclean y hy] at h2
        exact h2
      exact List.inj_on_of_nodup_map hnn hx hy h1
    have hrew_nodup : (rewriteLedger lines [] new).Nodup := by
      unfold rewriteLedger
      refine List.Nodup.append (hladup.filter _) hmapn ?_
      intro l hlf hlm
      rw [List.mem_filter] at hlf
      obtain ⟨_, hcond⟩ := hlf
      rw [decide_eq_true_eq] at hcond
      obtain ⟨_, hno⟩ := hcond
      rw [List.mem_map] at hlm
      obtain ⟨p, hp, rfl⟩ := hlm
      exact hno ⟨p, hp, (hclean p hp).symm⟩
    apply (List.perm_ext_iff_of_nodup hrew_nodup hladup).mpr
    intro l
    constructor
    · intro hl
      rcases (mem_rewriteLedger lines [] new l).mp hl with ⟨h1, _, _⟩ | ⟨p, hp, rfl⟩
      · exact h1
      · exact hin p hp
    · intro hl
      by_cases hex : ∃ p ∈ new, p.1 = keyOf l
      · obtain ⟨p, hp, hpk⟩ := hex
        have hml : mkLine p ∈ lines := hin p hp
        have hlp : l = mkLine p := by
          apply List.inj_on_of_nodup_map hnl hl hml
          rw [hclean p hp, hpk]
        rw [hlp]
        exact (mem_rewriteLedger lines [] new (mkLine p)).mpr (Or.inr ⟨p, hp, rfl⟩)
      · exact (mem_rewriteLedger lines [] new l).mpr
          (Or.inl ⟨hl, by simp, fun p hp hpe => hex ⟨p, hp, hpe⟩⟩)

/-- Witness for C8 (amended): the still-failing key abc is re-recorded with
its original reason, so the rewritten two-line ledger is a permutation of
the original. -/
theorem retry_ledger_key_preservation_witness :
    (rewriteLedger ["abc\ttimeout", "xyzw\tfoo"] [] [("abc", "timeout")]).Perm
      ["abc\ttimeout", "xyzw\tfoo"] := by
  exact (retry_ledger_key_preservation ["abc\ttimeout", "xyzw\tfoo"] [("abc", "timeout")]
    (by decide)).2 (by decide) (by decide) (by decide)

/-! ### Helper lemmas: round-robin sharding -/

theorem pushAt_length {α : Type} : ∀ (out : List (List α)) (k : Nat) (v : α),
    (pushAt out k v).length = out.length := by
  intro out
  induction out with
  | nil => intro k v; rfl
  | cons xs rest ih =>
    intro k v
    cases k with
    | zero => rfl
    | succ k' => simp [pushAt, ih]

theorem pushAt_getD {α : Type} : ∀ (out : List (List α)) (k j : Nat) (v : α),
    (pushAt out k v).getD j []
      = if k = j ∧ j < out.length then out.getD j [] ++ [v] else out.getD j [] := by
  intro out
  induction out with
  | nil => intro k j v; simp [pushAt]
  | cons xs rest ih =>
    intro k j v
    cases k with
    | zero =>
      cases j with
      | zero => simp [pushAt]
      | succ j' => simp [pushAt]
    | succ k' =>
      cases j with
      | zero => simp [pushAt]
      | succ j' =>
        simp only [pushAt, List.getD_cons_succ]
        rw [ih k' j' v]
        by_cases hc : k' = j' ∧ j' < rest.length
        · rw [if_pos hc, if_pos]
          refine ⟨by omega, ?_⟩
          simp only [List.length_cons]
          omega
        · rw [if_neg hc, if_neg]
          intro hcc
          apply hc
          simp only [List.length_cons] at hcc
          exact ⟨by omega, by omega⟩

theorem shardLoop_length {α : Type} (n : Nat) : ∀ (arr : List α) (i : Nat) (out : List (List α)),
    (shardLoop n arr i out).length = out.length := by
  intro arr
  induction arr with
  | nil => intro i out; rfl
  | cons v rest ih =>
    intro i out
    simp only [shardLoop]
    rw [ih (i + 1) (pushAt out (i % n) v), pushAt_length]

theorem shardLoop_getD {α : Type} (n : Nat) : ∀ (arr : List α) (i : Nat) (out : List (List α)) (j : Nat),
    j < n → out.length = n →
    (shardLoop n arr i out).getD j [] = out.getD j [] ++ residues n i j arr := by
  intro arr
  induction arr with
  | nil => intro i out j hj hl; simp [shardLoop, residues]
  | cons v rest ih =>
    intro i out j hj hl
    simp only [shardLoop]
    rw [ih (i + 1) (pushAt out (i % n) v) j hj (by rw [pushAt_length]; exact hl)]
    rw [pushAt_getD]
    by_cases hc : i % n = j
    · rw [if_pos ⟨hc, by omega⟩]
      simp only [residues, if_pos hc, List.singleton_append, List.append_assoc,
        List.cons_append, List.nil_append]
    · rw [if_neg (fun hh => hc hh.1)]
      simp only [residues, if_neg hc, List.nil_append]

theorem replicate_getD {α : Type} : ∀ (n j : Nat), (List.replicate n ([] : List α)).getD j [] = [] := by
  intro n
  induction n with
  | zero => intro j; simp
  | succ m ih =>
    intro j
    cases j with
    | zero => simp [List.replicate]
    | succ j' => simpa [List.replicate] using ih j'

theorem shardArray_getD {α : Type} (arr : List α) (n j : Nat) (hj : j < n) :
    (shardArray arr n).getD j [] = residues n 0 j arr := by
  unfold shardArray
  rw [shardLoop_getD n arr 0 (List.replicate n []) j hj (by simp), replicate_getD]
  simp

theorem succ_mod (n i : Nat) (hn : 0 < n) :
    (i + 1) % n = if i % n + 1 = n then 0 else i % n + 1 := by
  have h1 : (i + 1) % n = (i % n + 1) % n := by
    conv_lhs => rw [← Nat.mod_add_div i n]
    rw [Nat.add_right_comm, Nat.add_mul_mod_self_left]
  by_cases h : i % n + 1 = n
  · rw [if_pos h, h1, h]
    exact Nat.mod_self n
  · rw [if_neg h, h1]
    have := Nat.mod_lt i hn
    exact Nat.mod_eq_of_lt (by omega)

theorem residues_getD {α : Type} (n : Nat) (j : Nat) (hj : j < n) :
    ∀ (arr : List α) (i q : Nat) (d : α),
      (residues n i j arr).getD q d = arr.getD ((n + j - i % n) % n + q * n) d := by
  intro arr
  induction arr with
  | nil => intro i q d; simp [residues]
  | cons v rest ih =>
    intro i q d
    have hn : 0 < n := by omega
    have him : i % n < n := Nat.mod_lt _ hn
    have hsm := succ_mod n i hn
    by_cases hc : i % n = j
    · have hp0 : (n + j - i % n) % n = 0 := by
        rw [hc]
        have h2 : n + j - j = n := by omega
        rw [h2, Nat.mod_self]
      rw [hp0]
      simp only [residues, if_pos hc, List.singleton_append, List.cons_append, List.nil_append]
      cases q with
      | zero => simp
      | succ q' =>
        rw [List.getD_cons_succ, ih (i + 1) q' d]
        have hp0' : (n + j - (i + 1) % n) % n = n - 1 := by
          rw [hsm]
          by_cases hh : i % n + 1 = n
          · rw [if_pos hh]
            have h2 : n + j - 0 = n + j := by omega
            rw [h2, Nat.add_mod_left, Nat.mod_eq_of_lt hj]
            omega
          · rw [if_neg hh]
            rw [hc]
            have h2 : n + j - (j + 1) = n - 1 := by omega
            rw [h2]
            exact Nat.mod_eq_of_lt (by omega)
        rw [hp0']
        have h3 : 0 + (q' + 1) * n = (n - 1 + q' * n) + 1 := by
          have h4 : (q' + 1) * n = q' * n + n := by ring
          omega
        rw [h3, List.getD_cons_succ]
    · have hp0 : (n + j - i % n) % n = if i % n < j then j - i % n else n + j - i % n := by
        by_cases hlt : i % n < j
        · rw [if_pos hlt]
          have h2 : n + j - i % n = n + (j - i % n) := by omega
          rw [h2, Nat.add_mod_left]
          exact Nat.mod_eq_of_lt (by omega)
        · rw [if_neg hlt]
          exact Nat.mod_eq_of_lt (by omega)
      have hp0' : (n + j - (i + 1) % n) % n
          = (if i % n < j then j - i % n else n + j - i % n) - 1 := by
        rw [hsm]
        by_cases hh : i % n + 1 = n
        · rw [if_pos hh]
          have h2 : n + j - 0 = n + j := by omega
          rw [h2, Nat.add_mod_left, Nat.mod_eq_of_lt hj]
          have h5 : ¬ i % n < j := by omega
          rw [if_neg h5]
          omega
        · rw [if_neg hh]
          by_cases hlt : i % n < j
          · rw [if_pos hlt]
            by_cases hle : i % n + 1 = j
            · have h2 : n + j - (i % n + 1) = n := by omega
              rw [h2, Nat.mod_self]
              omega
            · have h2 : n + j - (i % n + 1) = n + (j - i % n - 1) := by omega
              rw [h2, Nat.add_mod_left, Nat.mod_eq_of_lt (by omega)]
          · rw [if_neg hlt]
            rw [Nat.mod_eq_of_lt (by omega)]
            omega
      simp only [residues, if_neg hc, List.nil_append]
      rw [ih (i + 1) q d, hp0', hp0]
      have hP : 1 ≤ (if i % n < j then j - i % n else n + j - i % n) := by
        by_cases hlt : i % n < j
        · rw [if_pos hlt]; omega
        · rw [if_neg hlt]; omega
      have heq : (if i % n < j then j - i % n else n + j - i % n) + q * n
          = ((if i % n < j then j - i % n else n + j - i % n) - 1 + q * n) + 1 := by omega
      rw [heq, List.getD_cons_succ]

theorem residues_sublist {α : Type} (n : Nat) : ∀ (arr : List α) (i j : Nat),
    (residues n i j arr).Sublist arr := by
  intro arr
  induction arr with
  | nil => intro i j; simp [residues]
  | cons v rest ih =>
    intro i j
    by_cases hc : i % n = j
    · simpa [residues, hc] using (ih (i + 1) j).cons₂ v
    · simpa [residues, hc] using (ih (i + 1) j).cons v

theorem residues_length_sum {α : Type} (n : Nat) (hn : 0 < n) :
    ∀ (arr : List α) (i : Nat),
      (∑ t ∈ Finset.range n, (residues n i t arr).length) = arr.length := by
  intro arr
  induction arr with
  | nil => intro i; simp [residues]
  | cons v rest ih =>
    intro i
    have him : i % n ∈ Finset.range n := Finset.mem_range.mpr (Nat.mod_lt _ hn)
    have hsplit : ∀ t, (residues n i t (v :: rest) : List α).length
        = (if i % n = t then 1 else 0) + (residues n (i + 1) t rest).length := by
      intro t
      by_cases hc : i % n = t <;> simp [residues, hc] <;> omega
    calc (∑ t ∈ Finset.range n, (residues n i t (v :: rest)).length)
        = ∑ t ∈ Finset.range n,
            ((if i % n = t then 1 else 0) + (residues n (i + 1) t rest).length) :=
          Finset.sum_congr rfl (fun t _ => hsplit t)
      _ = (∑ t ∈ Finset.range n, if i % n = t then 1 else 0)
          + ∑ t ∈ Finset.range n, (residues n (i + 1) t rest).length :=
          Finset.sum_add_distrib
      _ = 1 + rest.length := by
          rw [ih (i + 1)]
          congr 1
          rw [Finset.sum_ite_eq (Finset.range n) (i % n) (fun _ => 1)]
          simp [him]
      _ = (v :: rest).length := by
          simp only [List.length_cons]
          omega

theorem shardArray_length {α : Type} (arr : List α) (n : Nat) :
    (shardArray arr n).length = n := by
  unfold shardArray
  rw [shardLoop_length]
  simp

/-! ### Claim theorem: sharding (C7) -/

/-- Claim C7: sharding is the deterministic function shardArray of the key
list and the worker count: the shard list has one shard per worker, the key
at index p sits at position p / n of shard p mod n, the shard lengths sum to
the key count (every key lands in exactly one shard slot), and each shard is
a sublist of the input, preserving its order. -/
theorem shardArray_round_robin :
    ∀ (α : Type) (arr : List α) (n : Nat), 0 < n →
    (shardArray arr n).length = n
    ∧ (∀ (p : Nat) (d : α), ((shardArray arr n).getD (p % n) []).getD (p / n) d = arr.getD p d)
    ∧ (∑ j ∈ Finset.range n, ((shardArray arr n).getD j []).length) = arr.length
    ∧ ∀ j, j < n → ((shardArray arr n).getD j []).Sublist arr := by
  intro α arr n hn
  refine ⟨shardArray_length arr n, ?_, ?_, ?_⟩
  · intro p d
    have hj : p % n < n := Nat.mod_lt _ hn
    rw [shardArray_getD arr n _ hj, residues_getD n (p % n) hj arr 0 (p / n) d]
    congr 1
    simp only [Nat.zero_mod, Nat.sub_zero]
    rw [Nat.add_mod_left, Nat.mod_eq_of_lt hj]
    exact Nat.mod_add_div' p n
  · calc (∑ j ∈ Finset.range n, ((shardArray arr n).getD j []).length)
        = ∑ j ∈ Finset.range n, (residues n 0 j arr).length :=
          Finset.sum_congr rfl
            (fun j hj => by rw [shardArray_getD arr n j (Finset.mem_range.mp hj)])
      _ = arr.length := residues_length_sum n hn arr 0
  · intro j hj
    rw [shardArray_getD arr n j hj]
    exact residues_sublist n arr 0 j

/-- Witness for C7: three keys over two workers give two shards, and the key
at sorted index 2 sits at position 1 of shard 0. -/
theorem shardArray_round_robin_witness :
    (shardArray ["a", "b", "c"] 2).length = 2
    ∧ ((shardArray ["a", "b", "c"] 2).getD (2 % 2) []).getD (2 / 2) "z"
        = ["a", "b", "c"].getD 2 "z" := by
  exact ⟨(shardArray_round_robin String ["a", "b", "c"] 2 (by decide)).1,
    (shardArray_round_robin String ["a", "b", "c"] 2 (by decide)).2.1 2 "z"⟩

/-! ### Helper lemmas: retry input extraction -/

theorem mem_dedupAux : ∀ (l seen : List String) (x : String),
    x ∈ dedupAux l seen ↔ x ∈ l ∧ x ∉ seen := by
  intro l
  induction l with
  | nil => intro seen x; simp [dedupAux]
  | cons y rest ih =>
    intro seen x
    by_cases h : y ∈ seen
    · rw [show dedupAux (y :: rest) seen = dedupAux rest seen from by
        simp [dedupAux, if_pos h]]
      rw [ih]
      constructor
      · rintro ⟨hx, hns⟩
        exact ⟨List.mem_cons_of_mem y hx, hns⟩
      · rintro ⟨hx, hns⟩
        rcases List.mem_cons.mp hx with rfl | hx'
        · exact absurd h hns
        · exact ⟨hx', hns⟩
    · rw [show dedupAux (y :: rest) seen = y :: dedupAux rest (y :: seen) from by
        simp [dedupAux, if_neg h]]
      rw [List.mem_cons, ih]
      constructor
      · rintro (rfl | ⟨hx, hns⟩)
        · exact ⟨List.mem_cons_self _ _, h⟩
        · exact ⟨List.mem_cons_of_mem y hx,
            fun hs => hns (List.mem_cons_of_mem y hs)⟩
      · rintro ⟨hx, hns⟩
        rcases List.mem_cons.mp hx with rfl | hx'
        · exact Or.inl rfl
        · by_cases hxy : x = y
          · exact Or.inl hxy
          · refine Or.inr ⟨hx', ?_⟩
            intro hmem
            rcases List.mem_cons.mp hmem with rfl | hs
            · exact hxy rfl
            · exact hns hs

theorem mem_dedupKeepFirst (l : List String) (x : String) :
    x ∈ dedupKeepFirst l ↔ x ∈ l := by
  rw [dedupKeepFirst, mem_dedupAux]
  simp

theorem mem_checkedKeys (lines : List String) (k : String) :
    k ∈ checkedKeys lines ↔
      (∃ l ∈ lines, keyOf l = k) ∧ k ≠ "" ∧ 3 ≤ k.length ∧ k.length ≤ 10 := by
  unfold checkedKeys
  rw [List.mem_filter, mem_dedupKeepFirst, List.mem_filter, List.mem_map]
  simp only [decide_eq_true_eq]
  tauto

/-! ### Claim theorem: invalid-length ledger keys (C10) -/

/-- Claim C10: in a completed retry run, a ledger line whose key's length is
outside the inclusive bounds 3..10 is excluded from the checked key list
before any network activity — its key lies in no shard built from the
checked keys, so it is never queried — and, since every emitted record names
a checked key, the key is neither resolved nor re-errored and its original
line is carried verbatim into the rewritten ledger. -/
theorem retry_length_filter_carryover :
    ∀ (lines : List String) (l : String) (records : List CheckRec)
      (us : List String) (w j : Nat),
    l ∈ lines →
    ¬ (3 ≤ (keyOf l).length ∧ (keyOf l).length ≤ 10) →
    (∀ r ∈ records, r.username ∈ checkedKeys lines) →
    keyOf l ∉ checkedKeys lines
    ∧ (us.Perm (checkedKeys lines) → j < w → keyOf l ∉ (shardArray us w).getD j [])
    ∧ (keyOf l ∉ (runRetryState records).1
       ∧ ∀ v, (keyOf l, v) ∉ (runRetryState records).2)
    ∧ l ∈ rewriteLedger lines (runRetryState records).1 (runRetryState records).2 := by
  intro lines l records us w j hl hlen hrec
  have hnotchecked : keyOf l ∉ checkedKeys lines := by
    intro hmem
    exact hlen ((mem_checkedKeys lines (keyOf l)).mp hmem).2.2
  have hres : keyOf l ∉ (runRetryState records).1 := by
    intro hmem
    have h := (runRetryState_resolved_spec records ([], []) (keyOf l)).mp hmem
    simp only [List.not_mem_nil, false_or] at h
    obtain ⟨r, hr, hru, _⟩ := h
    exact hnotchecked (hru ▸ hrec r hr)
  have hnewkey : ∀ k, (∃ v, (k, v) ∈ (runRetryState records).2) → k ∈ checkedKeys lines := by
    intro k hk
    have h := (runRetryState_newErrors_spec records ([], []) k).mp hk
    simp at h
    obtain ⟨r, hr, hru, _⟩ := h
    exact hru ▸ hrec r hr
  have hnew : ∀ v, (keyOf l, v) ∉ (runRetryState records).2 := by
    intro v hmem
    exact hnotchecked (hnewkey (keyOf l) ⟨v, hmem⟩)
  refine ⟨hnotchecked, ?_, ⟨hres, hnew⟩, ?_⟩
  · intro hperm hjw hmem
    rw [shardArray_getD us w j hjw] at hmem
    have hsub := (residues_sublist w us 0 j).subset hmem
    exact hnotchecked (hperm.mem_iff.mp hsub)
  · apply (mem_rewriteLedger lines _ _ l).mpr
    refine Or.inl ⟨hl, hres, ?_⟩
    intro p hp hpe
    have hk : p.1 ∈ checkedKeys lines := hnewkey p.1 ⟨p.2, hp⟩
    exact hnotchecked (hpe ▸ hk)

/-- Witness for C10: a ledger key of length 17 is excluded from the checked
keys and its line is carried verbatim through the rewrite. -/
theorem retry_length_filter_carryover_witness :
    keyOf "toolongusername12\tx" ∉ checkedKeys ["toolongusername12\tx", "abc\ttimeout"]
    ∧ "toolongusername12\tx" ∈ rewriteLedger ["toolongusername12\tx", "abc\ttimeout"]
        (runRetryState [⟨"abc", some true, none⟩]).1
        (runRetryState [⟨"abc", some true, none⟩]).2 := by
  have h := retry_length_filter_carryover ["toolongusername12\tx", "abc\ttimeout"]
    "toolongusername12\tx" [⟨"abc", some true, none⟩]
    (checkedKeys ["toolongusername12\tx", "abc\ttimeout"]) 1 0
    (by decide) (by decide) (by decide)
  exact ⟨h.1, h.2.2.2⟩

/-! ### Helper lemmas: worker result stream -/

theorem pushRec_concat (B : Nat) (st : EmitState) (r : CheckRec) :
    (pushRec B st r).emitted ++ (pushRec B st r).buffer = st.emitted ++ st.buffer ++ [r] := by
  simp only [pushRec]
  split
  · simp
  · simp

theorem foldl_pushRec_concat (B : Nat) : ∀ (rs : List CheckRec) (st : EmitState),
    (rs.foldl (pushRec B) st).emitted ++ (rs.foldl (pushRec B) st).buffer
      = st.emitted ++ st.buffer ++ rs := by
  intro rs
  induction rs with
  | nil => intro st; simp
  | cons r rest ih =>
    intro st
    rw [List.foldl_cons, ih, pushRec_concat]
    simp

theorem flushEmit_emitted (st : EmitState) :
    (flushEmit st).emitted = st.emitted ++ st.buffer := by
  simp only [flushEmit]
  split
  · next h => simp [h]
  · simp

theorem worker_foldl_concat (B retries : Nat) (resp : List String → Nat → BatchResp)
    (single : List String → Nat → String → Except String Bool) :
    ∀ (bs : List (List String)) (st : EmitState),
      (bs.foldl (fun st b =>
        (processBatch b (resp b) (single b) retries).foldl (pushRec B) st) st).emitted
      ++ (bs.foldl (fun st b =>
        (processBatch b (resp b) (single b) retries).foldl (pushRec B) st) st).buffer
      = st.emitted ++ st.buffer
        ++ (bs.map (fun b => processBatch b (resp b) (single b) retries)).flatten := by
  intro bs
  induction bs with
  | nil => intro st; simp
  | cons b rest ih =>
    intro st
    rw [List.foldl_cons, ih, foldl_pushRec_concat]
    simp [List.flatten_cons]

theorem runWorkerOn_flatten (bs : List (List String)) (B : Nat)
    (resp : List String → Nat → BatchResp)
    (single : List String → Nat → String → Except String Bool) (retries : Nat) :
    runWorkerOn bs B resp single retries
      = (bs.map (fun b => processBatch b (resp b) (single b) retries)).flatten := by
  unfold runWorkerOn
  rw [flushEmit_emitted, worker_foldl_concat]
  simp

theorem withRetryFrom_step {α : Type} (attempt : Nat → Except String α) (i r : Nat) (e : String)
    (ha : attempt i = .error e) (hr : isRetryable e = true) :
    withRetryFrom attempt i (r + 1) = withRetryFrom attempt (i + 1) r := by
  simp [withRetryFrom, ha, hr]

theorem withRetryFrom_zero_err {α : Type} (attempt : Nat → Except String α) (i : Nat) (e : String)
    (ha : attempt i = .error e) :
    withRetryFrom attempt i 0 = (.error e, i + 1) := by
  simp [withRetryFrom, ha]

theorem withRetryFrom_ok_attempt {α : Type} (attempt : Nat → Except String α) :
    ∀ (rem i : Nat) (v : α), (withRetryFrom attempt i rem).1 = .ok v → ∃ k, attempt k = .ok v := by
  intro rem
  induction rem with
  | zero =>
    intro i v h
    cases ha : attempt i with
    | ok w =>
      rw [withRetryFrom_ok attempt i 0 w ha] at h
      simp at h
      exact ⟨i, by rw [ha, h]⟩
    | error e =>
      rw [withRetryFrom_zero_err attempt i e ha] at h
      simp at h
  | succ r ih =>
    intro i v h
    cases ha : attempt i with
    | ok w =>
      rw [withRetryFrom_ok attempt i (r + 1) w ha] at h
      simp at h
      exact ⟨i, by rw [ha, h]⟩
    | error e =>
      by_cases hr : isRetryable e = true
      · rw [withRetryFrom_step attempt i r e ha hr] at h
        exact ih (i + 1) v h
      · have hrf : isRetryable e = false := by simpa using hr
        rw [withRetryFrom_fatal attempt i (r + 1) e ha hrf] at h
        simp at h

theorem checkBatch_ok_shape (batch : List String) (r : BatchResp)
    (single : String → Except String Bool) (v : List CheckRec)
    (h : (checkBatch batch r single).outcome = .ok v) :
    (v.map (fun rc => rc.username)) = batch
    ∨ ∃ st rs, r = .resp st (.objResults rs) ∧ v = rs := by
  by_cases h1 : batch.length = 1
  · obtain ⟨x, rfl⟩ := length_one_ex batch h1
    cases hs : single x with
    | ok b =>
      left
      simp [checkBatch, hs] at h
      rw [← h]
      simp
    | error e =>
      simp [checkBatch, hs] at h
  · cases r with
    | exn m =>
      left
      have h2 : checkBatch batch (.exn m) single
          = ⟨.ok (batch.map (fallbackRec single)), batch, true⟩ := by
        simp [checkBatch, h1]
      rw [h2] at h
      simp at h
      rw [← h, fallback_usernames_map]
    | resp s body =>
      cases body with
      | malformed =>
        left
        have h2 : checkBatch batch (.resp s .malformed) single
            = ⟨.ok (batch.map (fallbackRec single)), batch, true⟩ := by
          simp [checkBatch, h1]
        rw [h2] at h
        simp at h
        rw [← h, fallback_usernames_map]
      | jnull =>
        left
        have h2 : checkBatch batch (.resp s .jnull) single
            = ⟨.ok (batch.map (fallbackRec single)), batch, true⟩ := by
          simp [checkBatch, h1]
        rw [h2] at h
        simp at h
        rw [← h, fallback_usernames_map]
      | scalar =>
        left
        have h2 : checkBatch batch (.resp s .scalar) single
            = ⟨.ok (batch.map (fallbackRec single)), batch, true⟩ := by
          simp [checkBatch, h1]
        rw [h2] at h
        simp at h
        rw [← h, fallback_usernames_map]
      | arrTop =>
        left
        have h2 : checkBatch batch (.resp s .arrTop) single
            = ⟨.ok (batch.map (fallbackRec single)), batch, true⟩ := by
          simp [checkBatch, h1]
        rw [h2] at h
        simp at h
        rw [← h, fallback_usernames_map]
      | objResults rs =>
        by_cases hst : s = 200 ∨ s = 201
        · right
          simp [checkBatch, h1, hst] at h
          exact ⟨s, rs, rfl, h.symm⟩
        · left
          simp [checkBatch, h1, hst] at h
          rw [← h, fallback_usernames_map]
      | objMap m =>
        by_cases hst : s = 200 ∨ s = 201
        · left
          simp [checkBatch, h1, hst] at h
          rw [← h, List.map_map]
          have hcong : ∀ u ∈ batch, ((fun rc => rc.username)
              ∘ (fun u => (⟨u, mapAvail (m u), none⟩ : CheckRec))) u = id u :=
            fun u _ => rfl
          rw [List.map_congr_left hcong, List.map_id]
        · left
          simp [checkBatch, h1, hst] at h
          rw [← h, fallback_usernames_map]

theorem processBatch_usernames (batch : List String) (resp : Nat → BatchResp)
    (single : Nat → String → Except String Bool) (retries : Nat)
    (harr : ∀ (k st : Nat) (rs : List CheckRec),
      resp k = .resp st (.objResults rs) → ((rs.map (fun rc => rc.username)).Perm batch)) :
    ((processBatch batch resp single retries).map (fun rc => rc.username)).Perm batch := by
  unfold processBatch
  cases hres : withRetry (fun k => (checkBatch batch (resp k) (single k)).outcome) retries with
  | mk res n =>
    cases res with
    | error e =>
      show ((batch.map (fun u => (⟨u, none, some e⟩ : CheckRec))).map
        (fun rc => rc.username)).Perm batch
      have h1 : ((batch.map (fun u => (⟨u, none, some e⟩ : CheckRec))).map
          (fun rc => rc.username)) = batch := by
        rw [List.map_map]
        have hcong : ∀ u ∈ batch, ((fun rc => rc.username)
            ∘ (fun u => (⟨u, none, some e⟩ : CheckRec))) u = id u :=
          fun u _ => rfl
        rw [List.map_congr_left hcong, List.map_id]
      rw [h1]
    | ok rs =>
      have hfst : (withRetry (fun k =>
          (checkBatch batch (resp k) (single k)).outcome) retries).1 = .ok rs := by
        rw [hres]
      obtain ⟨k, hk⟩ := withRetryFrom_ok_attempt
        (fun k => (checkBatch batch (resp k) (single k)).outcome) retries 0 rs hfst
      show ((rs.map (fun r0 =>
        (⟨r0.username, r0.available, normError r0.error⟩ : CheckRec))).map
        (fun rc => rc.username)).Perm batch
      have h1 : ((rs.map (fun r0 =>
          (⟨r0.username, r0.available, normError r0.error⟩ : CheckRec))).map
          (fun rc => rc.username)) = rs.map (fun rc => rc.username) := by
        rw [List.map_map]
        rfl
      rw [h1]
      rcases checkBatch_ok_shape batch (resp k) (single k) rs hk with hu | ⟨st, rs', hr, rfl⟩
      · rw [hu]
      · exact harr k st rs hr

theorem flatten_map_perm (f : List String → List CheckRec) :
    ∀ (bs : List (List String)),
      (∀ b ∈ bs, ((f b).map (fun rc => rc.username)).Perm b) →
      (((bs.map f).flatten).map (fun rc => rc.username)).Perm bs.flatten := by
  intro bs
  induction bs with
  | nil => intro h; simp
  | cons b rest ih =>
    intro h
    simp only [List.map_cons, List.flatten_cons, List.map_append]
    exact (h b (List.mem_cons_self b rest)).append
      (ih (fun b' hb' => h b' (List.mem_cons_of_mem b hb')))

theorem toBatches_flatten {α : Type} (B' : Nat) : ∀ (l : List α), (toBatches B' l).flatten = l
  | [] => by simp [toBatches]
  | x :: rest => by
    have h := toBatches_flatten B' (rest.drop B')
    simp only [toBatches, List.flatten_cons, h, List.cons_append, List.take_append_drop]
termination_by l => l.length
decreasing_by
  simp only [List.length_drop, List.length_cons]
  omega

/-! ### Claim theorem: exactly-once result emission (C1) -/

/-- Claim C1: for every key list, batch grouping, IPC buffer size, retry
budget, completion order of the batch groups, and environment behavior in
which every accepted array-form batch response names exactly the keys of its
batch, the records emitted across batch emission and the final flush name
exactly the input keys (as a permutation, hence with equal multiplicities,
so a deduplicated key list yields exactly one record per key), and every
emitted record carries exactly one of the three statuses Available
(available = some true), Taken (some false), or Error (none). -/
theorem worker_exactly_once :
    ∀ (usernames : List String) (B' B retries : Nat)
      (resp : List String → Nat → BatchResp)
      (single : List String → Nat → String → Except String Bool)
      (bs : List (List String)),
    bs.Perm (toBatches B' usernames) →
    (∀ b ∈ bs, ∀ (k st : Nat) (rs : List CheckRec),
      resp b k = .resp st (.objResults rs) → ((rs.map (fun rc => rc.username)).Perm b)) →
    ((runWorkerOn bs B resp single retries).map (fun rc => rc.username)).Perm usernames
    ∧ (∀ u, ((runWorkerOn bs B resp single retries).map (fun rc => rc.username)).count u
        = usernames.count u)
    ∧ (∀ rc ∈ runWorkerOn bs B resp single retries,
        (rc.available = some true ∧ rc.available ≠ some false ∧ rc.available ≠ none)
        ∨ (rc.available ≠ some true ∧ rc.available = some false ∧ rc.available ≠ none)
        ∨ (rc.available ≠ some true ∧ rc.available ≠ some false ∧ rc.available = none)) := by
  intro usernames B' B retries resp single bs hperm harr
  have hmain : ((runWorkerOn bs B resp single retries).map
      (fun rc => rc.username)).Perm usernames := by
    rw [runWorkerOn_flatten]
    have h1 := flatten_map_perm (fun b => processBatch b (resp b) (single b) retries) bs
      (fun b hb => processBatch_usernames b (resp b) (single b) retries (harr b hb))
    have h2 : (bs.flatten).Perm ((toBatches B' usernames).flatten) := hperm.flatten
    rw [toBatches_flatten B' usernames] at h2
    exact h1.trans h2
  refine ⟨hmain, fun u => hmain.count_eq u, ?_⟩
  intro rc _
  rcases hav : rc.available with _ | b
  · right; right; simp [hav]
  · cases b
    · right; left; simp [hav]
    · left; simp [hav]

/-- Witness for C1: three keys grouped into batches of two are all reported
exactly once even when every batch POST throws and the single-key fallback
answers each key. -/
theorem worker_exactly_once_witness :
    ((runWorkerOn [["abc", "abd"], ["abe"]] 1 (fun _ _ => .exn "boom")
      (fun _ _ _ => .ok true) 5).map (fun rc => rc.username)).Perm ["abc", "abd", "abe"] := by
  refine (worker_exactly_once ["abc", "abd", "abe"] 1 1 5 (fun _ _ => .exn "boom")
    (fun _ _ _ => .ok true) [["abc", "abd"], ["abe"]] ?_ ?_).1
  · have h : toBatches 1 ["abc", "abd", "abe"] = [["abc", "abd"], ["abe"]] := by
      simp [toBatches]
    rw [h]
  · intro b hb k st rs h
    simp at h
